import Mathlib

/-!
Shallow embedding of the matrix-discovery analysis engine: the dependency
record model and its compact textual notation, the dependency-matrix metrics
builder, the extended prefix automaton with its entropy measure, and the
hypothesis-scoring evaluator.  Rust strings are Lean `String`s, `char` is
`Char`, `HashMap`/`HashSet` are association lists / lists with the insert and
lookup discipline spelled out below, and `f64` arithmetic is idealized as real
arithmetic.  The pairwise classification oracle (`check_temporal_dependency`,
`check_existential_dependency`) is external to the core and is passed in as a
function parameter, per its call contract.
-/

namespace MatrixDiscovery

/-! ## Dependency data model (src/dependency_types).
The `temporal` and `existential` modules' type definitions follow the data
model of the specification and their use sites in the sources; Rust field
names `from`/`to` are rendered `dfrom`/`dto` because `from` is a Lean keyword. -/

namespace temporal

inductive DependencyType where
  | Direct
  | Eventual
deriving DecidableEq, Repr

inductive Direction where
  | Forward
  | Backward
deriving DecidableEq, Repr

structure TemporalDependency where
  dfrom : String
  dto : String
  dependency_type : DependencyType
  direction : Direction
deriving DecidableEq, Repr

end temporal

namespace existential

inductive DependencyType where
  | Implication
  | Equivalence
  | NegatedEquivalence
  | Nand
  | Or
deriving DecidableEq, Repr

inductive Direction where
  | Forward
  | Backward
  | Both
deriving DecidableEq, Repr

structure ExistentialDependency where
  dfrom : String
  dto : String
  dependency_type : DependencyType
  direction : Direction
deriving DecidableEq, Repr

end existential

/-- The `Dependency` from src/dependency_types/dependency.rs. -/
structure Dependency where
  dfrom : String
  dto : String
  temporal_dependency : Option temporal.TemporalDependency
  existential_dependency : Option existential.ExistentialDependency
deriving DecidableEq, Repr

/-! ## Compact-notation codec (src/dependency_types/dependency.rs).
`Dependency::from_str` tokenizes its input on `','`, `':'` and `' '` and reads
the tokens sequentially; unrecognized or missing tokens make the Rust code
panic (process abort), which we record explicitly with the `abort` outcome,
distinct from the recoverable `err` outcome of a returned `Err`. -/

/-- Outcome of running a fallible Rust function that may also panic. -/
inductive Outcome (α : Type) where
  | ok (a : α)
  | err (msg : String)
  | abort (msg : String)
deriving DecidableEq, Repr

def Outcome.bind {α β : Type} : Outcome α → (α → Outcome β) → Outcome β
  | .ok a, f => f a
  | .err m, _ => .err m
  | .abort m, _ => .abort m

/-- The separator set of `s.split(&[',', ':', ' '][..])`. -/
def isSep (c : Char) : Bool := c = ',' || c = ':' || c = ' '

/-- Rust `str::split` on a character predicate: `n` separators yield `n + 1`
pieces, empty pieces included. -/
def splitOnPred (p : Char → Bool) : List Char → List (List Char)
  | [] => [[]]
  | c :: cs =>
    if p c then [] :: splitOnPred p cs
    else
      match splitOnPred p cs with
      | [] => [[c]]
      | t :: ts => (c :: t) :: ts

/-- The tokenization of `from_str`: split on `','`, `':'` and `' '`. -/
def splitSeps : List Char → List (List Char) := splitOnPred isSep

def tokensOf (s : String) : List String := (splitSeps s.toList).map List.asString

/-- Third token of `from_str`: the temporal dependency type code. -/
def tempTypeTok (s : String) : Outcome (Option temporal.DependencyType) :=
  if s = "d" then .ok (some temporal.DependencyType.Direct)
  else if s = "e" then .ok (some temporal.DependencyType.Eventual)
  else if s = "-" then .ok none
  else .abort ("Invalid temporal dependency type " ++ s)

/-- Fourth token of `from_str`: the temporal direction code. -/
def tempDirTok (s : String) : Outcome (Option temporal.Direction) :=
  if s = "b" then .ok (some temporal.Direction.Backward)
  else if s = "f" then .ok (some temporal.Direction.Forward)
  else if s = "-" then .ok none
  else .abort ("Invalid direction " ++ s)

/-- Fifth token of `from_str`: the existential dependency type code. -/
def existTypeTok (s : String) : Outcome (Option existential.DependencyType) :=
  if s = "i" then .ok (some existential.DependencyType.Implication)
  else if s = "e" then .ok (some existential.DependencyType.Equivalence)
  else if s = "ne" then .ok (some existential.DependencyType.NegatedEquivalence)
  else if s = "n" then .ok (some existential.DependencyType.Nand)
  else if s = "o" then .ok (some existential.DependencyType.Or)
  else if s = "-" then .ok none
  else .abort ("Invalid existential dependency type " ++ s)

/-- Sixth (optional) token of `from_str`: the existential direction code; a
missing token is read as `Both`. -/
def existDirTok : Option String → Outcome (Option existential.Direction)
  | some s =>
    if s = "f" then .ok (some existential.Direction.Forward)
    else if s = "b" then .ok (some existential.Direction.Backward)
    else if s = "-" then .ok none
    else .abort ("Invalid direction " ++ s)
  | none => .ok (some existential.Direction.Both)

/-- The token-consuming body of `Dependency::from_str` (everything after the
`split`); tokens beyond the sixth are ignored, as by the Rust iterator. -/
def fromTokens : List String → Outcome Dependency
  | [] => .err "Could not parse from activity"
  | [_] => .err "Could not parse to activity"
  | f :: t :: rest =>
    match rest with
    | [] => .abort "Missing dependency type"
    | tc :: rest2 =>
      (tempTypeTok tc).bind fun tt =>
        match rest2 with
        | [] => .abort "Missing direction"
        | td :: rest3 =>
          (tempDirTok td).bind fun tdir =>
            match rest3 with
            | [] => .abort "Missing existential dependency type"
            | ec :: rest4 =>
              (existTypeTok ec).bind fun et =>
                (existDirTok rest4.head?).bind fun edir =>
                  let temporal_dependency :=
                    match tt, tdir with
                    | some ty, some di => some (temporal.TemporalDependency.mk f t ty di)
                    | _, _ => none
                  let existential_dependency :=
                    match et, edir with
                    | some ty, some di => some (existential.ExistentialDependency.mk f t ty di)
                    | _, _ => none
                  .ok (Dependency.mk f t temporal_dependency existential_dependency)

/-- The `Dependency::from_str`. -/
def fromStr (s : String) : Outcome Dependency := fromTokens (tokensOf s)

/-- Modelled from the spec: rendering of a `TemporalDependency` (the
`temporal` module with its `Display` impl is not among the sources); §6 gives
`temporalCode ∈ {d, e}` and `temporalDir ∈ {f, b}`, joined by a comma. -/
def temporal.TemporalDependency.render (d : temporal.TemporalDependency) : String :=
  (match d.dependency_type with
   | temporal.DependencyType.Direct => "d"
   | temporal.DependencyType.Eventual => "e")
  ++ "," ++
  (match d.direction with
   | temporal.Direction.Forward => "f"
   | temporal.Direction.Backward => "b")

/-- Modelled from the spec: rendering of an `ExistentialDependency` (the
`existential` module with its `Display` impl is not among the sources); §6
gives `existentialCode ∈ {i, e, ne, n, o}` and notes that a `Both`-direction
dependency is written with no direction token. -/
def existential.ExistentialDependency.render (d : existential.ExistentialDependency) : String :=
  (match d.dependency_type with
   | existential.DependencyType.Implication => "i"
   | existential.DependencyType.Equivalence => "e"
   | existential.DependencyType.NegatedEquivalence => "ne"
   | existential.DependencyType.Nand => "n"
   | existential.DependencyType.Or => "o")
  ++
  (match d.direction with
   | existential.Direction.Forward => ",f"
   | existential.Direction.Backward => ",b"
   | existential.Direction.Both => "")

/-- The `Display for Dependency` (dependency.rs): both parts joined by a comma, a
missing part written as a single dash, both missing written `"None"`. -/
def Dependency.display (d : Dependency) : String :=
  match d.temporal_dependency, d.existential_dependency with
  | some t, some e => t.render ++ "," ++ e.render
  | some t, none => t.render ++ ",-"
  | none, some e => "-," ++ e.render
  | none, none => "None"

/-- The `convert_to_dependencies` over the already-split lines: empty lines are
skipped, and any line on which `from_str` panics or returns `Err` (then hit by
`unwrap`) aborts the whole batch. -/
def convertLines : List String → Outcome (List Dependency)
  | [] => .ok []
  | line :: rest =>
    if line = "" then convertLines rest
    else
      match fromStr line with
      | .ok d => (convertLines rest).bind fun ds => .ok (d :: ds)
      | .err m => .abort m
      | .abort m => .abort m

/-- The `convert_to_dependencies` (dependency.rs); `str::lines` is a split on
newline characters (the empty pieces it drops are skipped by the loop
anyway). -/
def convert_to_dependencies (s : String) : Outcome (List Dependency) :=
  convertLines ((splitOnPred (fun c => c = '\n') s.toList).map List.asString)

/-! ## Dependency-set evaluator (src/evaluation.rs, `evaluate_deps`).
The classification oracle is passed in as a pair of functions; `evaluate_deps`
calls it at threshold 1.0 on every ordered pair of distinct activities drawn
from a `HashSet` (so the enumeration order is an arbitrary permutation of the
deduplicated activity set), sorts the resulting dependencies by
`(from, to)`, and deduplicates them into an undirected set with a `seen`
set scan. -/

/-- Oracle output for one ordered pair, as used to assemble a `Dependency`. -/
def depOf (oT : String → String → Option temporal.TemporalDependency)
    (oE : String → String → Option existential.ExistentialDependency)
    (p : String × String) : Dependency :=
  Dependency.mk p.1 p.2 (oT p.1 p.2) (oE p.1 p.2)

/-- The ordered-pair enumeration `for from in &activities { for to in
&activities { if to != from ... } }`. -/
def adjPairs (acts : List String) : List (String × String) :=
  acts.flatMap fun f => (acts.filter fun t => decide (t ≠ f)).map fun t => (f, t)

/-- The `adj_matrix` vector built by `evaluate_deps` before sorting. -/
def adjMatrix (oT : String → String → Option temporal.TemporalDependency)
    (oE : String → String → Option existential.ExistentialDependency)
    (acts : List String) : List Dependency :=
  (adjPairs acts).map (depOf oT oE)

/-- The comparator `a.from.cmp(&b.from).then(a.to.cmp(&b.to))` as a
less-or-equal relation: lexicographic on `(from, to)`. -/
def depLe (a b : Dependency) : Prop :=
  a.dfrom < b.dfrom ∨ (a.dfrom = b.dfrom ∧ a.dto ≤ b.dto)

instance : DecidableRel depLe := fun a b =>
  inferInstanceAs (Decidable (a.dfrom < b.dfrom ∨ (a.dfrom = b.dfrom ∧ a.dto ≤ b.dto)))

/-- The dedup scan of `evaluate_deps`: keep a dependency only if neither its
`(from, to)` nor its `(to, from)` is in the `seen` set, and record `(from,
to)` when keeping. -/
def dedupScan : List Dependency → List (String × String) → List Dependency
  | [], _ => []
  | d :: rest, seen =>
    if (d.dfrom, d.dto) ∈ seen ∨ (d.dto, d.dfrom) ∈ seen then dedupScan rest seen
    else d :: dedupScan rest ((d.dfrom, d.dto) :: seen)

/-- The canonical discovery step of `evaluate_deps` (its `adj_matrix_sorted`):
classify every ordered pair, sort by `(from, to)`, then deduplicate into an
undirected set. -/
def canonicalDeps (oT : String → String → Option temporal.TemporalDependency)
    (oE : String → String → Option existential.ExistentialDependency)
    (acts : List String) : List Dependency :=
  dedupScan (List.insertionSort depLe (adjMatrix oT oE acts)) []

/-- The existential-axis scoring rule of `evaluate_deps`, applied to a matched
pair (hypothesis `expected`, canonical `actual`). -/
def existentialCorrect (expected actual : Option existential.ExistentialDependency) : Bool :=
  match expected, actual with
  | some e, some a =>
    if e.dependency_type = existential.DependencyType.Equivalence
        ∨ e.dependency_type = existential.DependencyType.NegatedEquivalence then
      decide (e.dependency_type = a.dependency_type)
    else if e.dependency_type = existential.DependencyType.Or then
      decide (e.dependency_type = a.dependency_type)
    else decide (e = a)
  | none, none => true
  | _, _ => false

/-- Modelled from the spec: the existential scoring rule as §4.4 Step 3 words
it — if both sides are `Equivalence`, both `NegatedEquivalence`, or both `Or`,
correct iff the kinds match; otherwise correct iff the two records are fully
structurally equal; both `None` also counts as correct. -/
def specExistentialCorrect (expected actual : Option existential.ExistentialDependency) : Prop :=
  match expected, actual with
  | some e, some a =>
    if (e.dependency_type = existential.DependencyType.Equivalence
          ∧ a.dependency_type = existential.DependencyType.Equivalence)
        ∨ (e.dependency_type = existential.DependencyType.NegatedEquivalence
          ∧ a.dependency_type = existential.DependencyType.NegatedEquivalence)
        ∨ (e.dependency_type = existential.DependencyType.Or
          ∧ a.dependency_type = existential.DependencyType.Or) then
      e.dependency_type = a.dependency_type
    else e = a
  | none, none => True
  | _, _ => False

/-! ## Extended prefix automaton (src/epa.rs). -/

/-- The `Event` (src/event.rs); Rust field `case` is rendered `caseId`. -/
structure Event where
  caseId : String
  activity : Char
  predecessor : Option String
deriving DecidableEq, Repr

/-- The `State` (src/state.rs); `sequences` is a `HashSet<Event>`, kept as a list
with membership-guarded insertion. -/
structure StateS where
  partition : Option Nat
  sequences : List Event
deriving DecidableEq, Repr

/-- The `HashMap` lookup on an association list. -/
def mapLookup {α : Type} (k : String) : List (String × α) → Option α
  | [] => none
  | (k', v) :: rest => if k' = k then some v else mapLookup k rest

/-- The `HashMap::insert`: any existing binding of the key is replaced. -/
def mapInsert {α : Type} (k : String) (v : α) (m : List (String × α)) : List (String × α) :=
  (k, v) :: m.filter fun kv => decide (kv.1 ≠ k)

/-- The `HashMap::get_mut` followed by an in-place mutation of the value. -/
def mapUpdate {α : Type} (k : String) (f : α → α) (m : List (String × α)) : List (String × α) :=
  m.map fun kv => if kv.1 = k then (kv.1, f kv.2) else kv

/-- The `HashSet::insert` on a list kept duplicate-free. -/
def hsInsert {α : Type} [DecidableEq α] (a : α) (s : List α) : List α :=
  if a ∈ s then s else a :: s

/-- The `ExtendedPrefixAutomaton` (src/epa.rs). -/
structure ExtendedPrefixAutomaton where
  states : List (String × StateS)
  transitions : List (String × Char × String)
  activities : List Char
  root : String
deriving DecidableEq, Repr

namespace ExtendedPrefixAutomaton

/-- The `ExtendedPrefixAutomaton::new()`: one root state with no partition. -/
def new : ExtendedPrefixAutomaton :=
  { states := [("root", { partition := none, sequences := [] })]
    transitions := []
    activities := []
    root := "root" }

/-- The linear scan `transitions.iter().find(|(source, act, _)| ...)`. -/
def findTransition (trans : List (String × Char × String)) (src : String) (act : Char) :
    Option String :=
  (trans.find? fun tr => decide (tr.1 = src) && decide (tr.2.1 = act)).map fun tr => tr.2.2

/-- The `states.values().filter_map(|s| s.partition).max().unwrap_or(0)`. -/
def maxPartition (epa : ExtendedPrefixAutomaton) : Nat :=
  ((epa.states.map Prod.snd).filterMap StateS.partition).foldl max 0

end ExtendedPrefixAutomaton

/-- The construction state of `build`: the automaton plus the `last_at` map
from case id to that case's current state. -/
structure BuildState where
  epa : ExtendedPrefixAutomaton
  lastAt : List (String × String)
deriving DecidableEq, Repr

/-- The state an incoming event continues from: `event.predecessor` looked up
in `last_at`, defaulting to the root. -/
def predAt (st : BuildState) (event : Event) : String :=
  match event.predecessor with
  | none => st.epa.root
  | some c => (mapLookup c st.lastAt).getD st.epa.root

/-- One iteration of the inner loop of `ExtendedPrefixAutomaton::build`. -/
def stepEvent (st : BuildState) (event : Event) : BuildState :=
  let pred_at := predAt st event
  match ExtendedPrefixAutomaton.findTransition st.epa.transitions pred_at event.activity with
  | some target =>
    let states :=
      mapUpdate target (fun s => { s with sequences := hsInsert event s.sequences })
        st.epa.states
    { epa := { st.epa with states := states }
      lastAt := mapInsert event.caseId target st.lastAt }
  | none =>
    let new_state_id := "s" ++ toString st.epa.states.length
    let current_c : Nat :=
      if pred_at = st.epa.root then 1
      else if st.epa.transitions.any fun tr => decide (tr.1 = pred_at) then
        st.epa.maxPartition + 1
      else ((mapLookup pred_at st.epa.states).bind StateS.partition).getD 0
    let states := mapInsert new_state_id { partition := some current_c, sequences := [] }
      st.epa.states
    let states :=
      mapUpdate new_state_id (fun s => { s with sequences := hsInsert event s.sequences }) states
    { epa :=
        { states := states
          transitions := st.epa.transitions ++ [(pred_at, event.activity, new_state_id)]
          activities := hsInsert event.activity st.epa.activities
          root := st.epa.root }
      lastAt := mapInsert event.caseId new_state_id st.lastAt }

/-- Fold of `stepEvent` over a flat event sequence. -/
def processEvents (st : BuildState) (events : List Event) : BuildState :=
  events.foldl stepEvent st

/-- The `ExtendedPrefixAutomaton::build` (src/epa.rs): the nested loop over
traces and their events. -/
def ExtendedPrefixAutomaton.build (plain_log : List (List Event)) : ExtendedPrefixAutomaton :=
  (plain_log.foldl (fun st trace => processEvents st trace)
    { epa := ExtendedPrefixAutomaton.new, lastAt := [] }).epa

/-! ## Entropy metrics (src/epa.rs).
`f64` arithmetic is idealized as real arithmetic; `f64::log10` is
`Real.logb 10`.  The `partition_sizes` histogram (a fold of the non-root
partition ids into a `HashMap<usize, usize>` of counts) is the multiset of
list counts, and the sum over its values is the sum over the distinct
partition ids of their multiplicities. -/

/-- The partition ids of all states carrying one (the root carries none):
`states.values().filter_map(|state| state.partition)`. -/
def partitionList (epa : ExtendedPrefixAutomaton) : List Nat :=
  (epa.states.map Prod.snd).filterMap StateS.partition

/-- The baseline `S`: `max(stateCount, 1)`, minus one when above one. -/
noncomputable def entropyS (epa : ExtendedPrefixAutomaton) : ℝ :=
  let s : ℝ := max (epa.states.length : ℝ) 1
  if 1 < s then s - 1 else s

/-- The `Σ size_p · log10(size_p)` over the partition histogram. -/
noncomputable def entropySumTerm (epa : ExtendedPrefixAutomaton) : ℝ :=
  ∑ v ∈ (partitionList epa).toFinset,
    ((partitionList epa).count v : ℝ) * Real.logb 10 ((partitionList epa).count v)

/-- The `ExtendedPrefixAutomaton::variant_entropy`. -/
noncomputable def variant_entropy (epa : ExtendedPrefixAutomaton) : ℝ :=
  entropyS epa * Real.logb 10 (entropyS epa) - entropySumTerm epa

open scoped Classical in
/-- The `ExtendedPrefixAutomaton::normalized_variant_entropy`, with its explicit
division-by-zero guard. -/
noncomputable def normalized_variant_entropy (epa : ExtendedPrefixAutomaton) : ℝ :=
  if entropyS epa * Real.logb 10 (entropyS epa) = 0 then 0
  else variant_entropy epa / (entropyS epa * Real.logb 10 (entropyS epa))

/-- The data-model shape `ExtendedPrefixAutomaton::build` guarantees and the
entropy metrics rely on: state keys are distinct (`HashMap`), the root state
is present and carries no partition id, and every other state carries one. -/
def StatesWellFormed (epa : ExtendedPrefixAutomaton) : Prop :=
  (epa.states.map Prod.fst).Nodup ∧
  (∃ kv ∈ epa.states, kv.1 = epa.root ∧ kv.2.partition = none) ∧
  ∀ kv ∈ epa.states, kv.1 ≠ epa.root → kv.2.partition.isSome = true

instance (epa : ExtendedPrefixAutomaton) : Decidable (StatesWellFormed epa) :=
  inferInstanceAs (Decidable (_ ∧ _ ∧ _))

/-! ## Matrix builder metrics (src/lib.rs). -/

/-- The `MatrixMetrics` (src/lib.rs), with `relationship_counts` as an association
list. -/
structure MatrixMetrics where
  full_independences : Nat
  pure_existences : Nat
  eventual_equivalences : Nat
  direct_equivalences : Nat
  relationship_counts : List (String × Nat)
deriving DecidableEq, Repr

/-- The `MatrixMetrics::default()`. -/
def MatrixMetrics.init : MatrixMetrics :=
  { full_independences := 0, pure_existences := 0, eventual_equivalences := 0
    direct_equivalences := 0, relationship_counts := [] }

/-- The `relationship_counts.entry(key).or_insert(0) += 1` on an association list
with distinct keys: bump the first binding of the key, or append a fresh one. -/
def bumpCount : List (String × Nat) → String → List (String × Nat)
  | [], k => [(k, 1)]
  | (k', v) :: rest, k =>
    if k' = k then (k', v + 1) :: rest else (k', v) :: bumpCount rest k

/-- The temporal label: `"eventual"`, `"direct"` or `"none"`. -/
def temporalLabel (td : Option temporal.TemporalDependency) : String :=
  match td with
  | some t =>
    match t.dependency_type with
    | temporal.DependencyType.Eventual => "eventual"
    | temporal.DependencyType.Direct => "direct"
  | none => "none"

/-- The existential label of `MatrixMetrics::update`: note the catch-all arm
sending both `Nand` and `Or` to `"other"`. -/
def existentialLabel (ed : Option existential.ExistentialDependency) : String :=
  match ed with
  | some e =>
    match e.dependency_type with
    | existential.DependencyType.Equivalence => "equivalence"
    | existential.DependencyType.Implication => "implication"
    | existential.DependencyType.NegatedEquivalence => "negated equivalence"
    | _ => "other"
  | none => "none"

/-- The `MatrixMetrics::update` (src/lib.rs). -/
def MatrixMetrics.update (m : MatrixMetrics)
    (temporal_dependency : Option temporal.TemporalDependency)
    (existential_dependency : Option existential.ExistentialDependency) : MatrixMetrics :=
  let temporal_type := temporalLabel temporal_dependency
  let m := if temporal_dependency.isNone then
      { m with pure_existences := m.pure_existences + 1 } else m
  let existential_type := existentialLabel existential_dependency
  let m := if existential_dependency.isNone ∧ temporal_type = "none" then
      { m with full_independences := m.full_independences + 1 } else m
  let relationship_type := "(" ++ temporal_type ++ ", " ++ existential_type ++ ")"
  let m := { m with relationship_counts := bumpCount m.relationship_counts relationship_type }
  match existential_dependency with
  | some ed =>
    if ed.dependency_type = existential.DependencyType.Equivalence then
      match temporal_dependency with
      | some td =>
        match td.dependency_type with
        | temporal.DependencyType.Eventual =>
          { m with eventual_equivalences := m.eventual_equivalences + 1 }
        | temporal.DependencyType.Direct =>
          { m with direct_equivalences := m.direct_equivalences + 1 }
      | none => m
    else m
  | none => m

/-- The deduplicated, lexicographically sorted activity list of the matrix
builder (`activities_sorted`). -/
def sortedActivities (activities : List String) : List String :=
  List.insertionSort (fun a b : String => a ≤ b) activities

/-- The ordered pairs the matrix builder classifies: the double loop over
`activities_sorted` skipping the diagonal. -/
def matrixPairs (activities : List String) : List (String × String) :=
  adjPairs (sortedActivities activities)

/-- The metrics accumulation of
`generate_adj_matrix_from_activities_and_traces`: one `update` per ordered
pair of distinct activities, with the oracle's classifications. -/
def matrixMetricsOf (oT : String → String → Option temporal.TemporalDependency)
    (oE : String → String → Option existential.ExistentialDependency)
    (activities : List String) : MatrixMetrics :=
  (matrixPairs activities).foldl (fun m p => m.update (oT p.1 p.2) (oE p.1 p.2))
    MatrixMetrics.init

/-- Sum of the values of `relationship_counts`. -/
def countsTotal (m : List (String × Nat)) : Nat := (m.map Prod.snd).sum

/-! ## Statement-level definitions used by the theorems below. -/

/-- The relation part `tc,td ec[,ed]` of a compact-notation line. -/
def relPart (tc td ec : String) (ed : Option String) : String :=
  tc ++ "," ++ td ++ " " ++ ec ++
    (match ed with
     | none => ""
     | some x => "," ++ x)

/-- A compact-notation line `from,to:tc,td ec[,ed]` assembled from its fields
(§6: the tokenizer treats `','`, `':'` and `' '` uniformly). -/
def lineOf (f t tc td ec : String) (ed : Option String) : String :=
  f ++ "," ++ t ++ ":" ++ relPart tc td ec ed

/-- Re-encoding of a decoded record: its endpoints followed by its rendered
relation part. -/
def reencode (d : Dependency) : String := d.dfrom ++ "," ++ d.dto ++ ":" ++ d.display

/-- Two dependencies cover the same unordered activity pair. -/
def sameUnorderedPair (d1 d2 : Dependency) : Prop :=
  (d1.dfrom = d2.dfrom ∧ d1.dto = d2.dto) ∨ (d1.dfrom = d2.dto ∧ d1.dto = d2.dfrom)

/-- The transition collection is a partial function of `(source, label)`. -/
def TransitionsFunctional (trans : List (String × Char × String)) : Prop :=
  ∀ t1 ∈ trans, ∀ t2 ∈ trans, t1.1 = t2.1 → t1.2.1 = t2.2.1 → t1 = t2

/-- Lexicographic less-or-equal on string pairs, the key order of the
`evaluate_deps` sort. -/
def pairLe (p q : String × String) : Prop :=
  p.1 < q.1 ∨ (p.1 = q.1 ∧ p.2 ≤ q.2)

instance : DecidableRel pairLe := fun p q =>
  inferInstanceAs (Decidable (p.1 < q.1 ∨ (p.1 = q.1 ∧ p.2 ≤ q.2)))

/-- Strict lexicographic order on string pairs. -/
def pairLt (p q : String × String) : Prop :=
  p.1 < q.1 ∨ (p.1 = q.1 ∧ p.2 < q.2)

/-- The dedup scan of `evaluate_deps` carried out on the key pairs alone. -/
def pairScan : List (String × String) → List (String × String) → List (String × String)
  | [], _ => []
  | p :: rest, seen =>
    if p ∈ seen ∨ (p.2, p.1) ∈ seen then pairScan rest seen
    else p :: pairScan rest (p :: seen)

/-- A fixture automaton with three non-root states in two partitions. -/
def epaFixture : ExtendedPrefixAutomaton :=
  { states := [("root", { partition := none, sequences := [] }),
               ("s1", { partition := some 1, sequences := [] }),
               ("s2", { partition := some 1, sequences := [] }),
               ("s3", { partition := some 2, sequences := [] })]
    transitions := [("root", 'A', "s1"), ("s1", 'B', "s2"), ("s1", 'C', "s3")]
    activities := ['A', 'B', 'C']
    root := "root" }

/-- A fixture event starting a fresh case. -/
def eventFixture : Event := { caseId := "case_0", activity := 'a', predecessor := none }

/-- A fixture event continuing `case_0`. -/
def eventFixture2 : Event := { caseId := "case_0", activity := 'b', predecessor := some "case_0" }

/-! ## Theorems. -/

/-- C2: for a matched hypothesis/canonical pair, the evaluator scores the
existential axis correct exactly when both sides' kinds are `Equivalence`,
both `NegatedEquivalence`, or both `Or` and the kinds match (direction
ignored); otherwise exactly when the two records are fully structurally
equal; and also when both sides are `None`. -/
theorem claim_C2_existential_scoring (expected actual : Option existential.ExistentialDependency) :
    existentialCorrect expected actual = true ↔ specExistentialCorrect expected actual := by
  cases expected with
  | none => cases actual <;> simp [existentialCorrect, specExistentialCorrect]
  | some e =>
    cases actual with
    | none => simp [existentialCorrect, specExistentialCorrect]
    | some a =>
      obtain ⟨ef, eg, ek, ed⟩ := e
      obtain ⟨af, ag, ak, ad⟩ := a
      cases ek <;> cases ak <;>
        simp [existentialCorrect, specExistentialCorrect]

/-- C8: on malformed compact-notation input — an unrecognized temporal code,
an unrecognized direction, a missing field — the decoder panics (aborts the
process) instead of returning a recoverable `Err`, and one bad line aborts
the whole batch conversion. -/
theorem claim_C8_decode_aborts :
    fromStr "a,b:x,f i,b" = Outcome.abort "Invalid temporal dependency type x"
    ∧ fromStr "a,b:d,x i,b" = Outcome.abort "Invalid direction x"
    ∧ fromStr "a,b:d,f" = Outcome.abort "Missing existential dependency type"
    ∧ convert_to_dependencies "a,b:x,f i,b\na,c:d,f i,b" =
        Outcome.abort "Invalid temporal dependency type x" :=
  ⟨rfl, rfl, rfl, rfl⟩

/-- Looking up a key right after inserting it and mutating its value in place
yields the mutated value. -/
theorem mapLookup_update_insert {α : Type} (k : String) (f : α → α) (v : α)
    (m : List (String × α)) :
    mapLookup k (mapUpdate k f (mapInsert k v m)) = some (f v) := by
  have h1 : mapUpdate k f (mapInsert k v m) =
      (k, f v) :: mapUpdate k f (m.filter fun kv => decide (kv.1 ≠ k)) := by
    unfold mapInsert mapUpdate
    rw [List.map_cons, if_pos rfl]
  rw [h1]
  unfold mapLookup
  rw [if_pos rfl]

/-- C3: whenever `build` creates a new state (no transition leaves the
resolved source state `p` on the event's activity), the new state's partition
id is `1` if `p` is the root, the current maximum partition id plus one if
`p` already has an outgoing transition, and `p`'s own partition id
otherwise. -/
theorem claim_C3_partition_assignment (st : BuildState) (event : Event)
    (hnew : ExtendedPrefixAutomaton.findTransition st.epa.transitions (predAt st event)
        event.activity = none) :
    (mapLookup ("s" ++ toString st.epa.states.length) (stepEvent st event).epa.states).map
        StateS.partition =
      some (some (if predAt st event = st.epa.root then 1
        else if st.epa.transitions.any fun tr => decide (tr.1 = predAt st event) then
          st.epa.maxPartition + 1
        else ((mapLookup (predAt st event) st.epa.states).bind StateS.partition).getD 0)) := by
  simp only [stepEvent, hnew]
  rw [mapLookup_update_insert]
  rfl

/-- Witness for C3: at the freshly initialized automaton, the first event of
a case is routed to the root, which triggers the root branch `partition = 1`
for the new state `s1`. -/
theorem claim_C3_partition_assignment_witness :
    ExtendedPrefixAutomaton.findTransition
        (BuildState.mk ExtendedPrefixAutomaton.new []).epa.transitions
        (predAt (BuildState.mk ExtendedPrefixAutomaton.new []) eventFixture)
        eventFixture.activity = none
    ∧ (mapLookup
          ("s" ++ toString (BuildState.mk ExtendedPrefixAutomaton.new []).epa.states.length)
          (stepEvent (BuildState.mk ExtendedPrefixAutomaton.new []) eventFixture).epa.states).map
        StateS.partition =
      some (some (if predAt (BuildState.mk ExtendedPrefixAutomaton.new []) eventFixture =
            (BuildState.mk ExtendedPrefixAutomaton.new []).epa.root then 1
        else if (BuildState.mk ExtendedPrefixAutomaton.new []).epa.transitions.any fun tr =>
            decide (tr.1 = predAt (BuildState.mk ExtendedPrefixAutomaton.new []) eventFixture) then
          (BuildState.mk ExtendedPrefixAutomaton.new []).epa.maxPartition + 1
        else ((mapLookup (predAt (BuildState.mk ExtendedPrefixAutomaton.new []) eventFixture)
            (BuildState.mk ExtendedPrefixAutomaton.new []).epa.states).bind
          StateS.partition).getD 0)) :=
  ⟨by decide, claim_C3_partition_assignment (BuildState.mk ExtendedPrefixAutomaton.new [])
    eventFixture (by decide)⟩

/-- The `findTransition` returns `none` exactly when no stored transition matches
the source and label. -/
theorem findTransition_eq_none {trans : List (String × Char × String)} {src : String}
    {act : Char} (h : ExtendedPrefixAutomaton.findTransition trans src act = none) :
    ∀ tr ∈ trans, ¬(tr.1 = src ∧ tr.2.1 = act) := by
  intro tr htr hc
  unfold ExtendedPrefixAutomaton.findTransition at h
  cases hfind : List.find? (fun tr => decide (tr.1 = src) && decide (tr.2.1 = act)) trans with
  | some x => rw [hfind] at h; simp at h
  | none =>
    have h2 := List.find?_eq_none.mp hfind tr htr
    simp [hc.1, hc.2] at h2

/-- One construction step preserves the transition-function invariant. -/
theorem stepEvent_preserves_functional (st : BuildState) (e : Event)
    (h : TransitionsFunctional st.epa.transitions) :
    TransitionsFunctional (stepEvent st e).epa.transitions := by
  unfold stepEvent
  cases hfind : ExtendedPrefixAutomaton.findTransition st.epa.transitions (predAt st e)
      e.activity with
  | some target => simpa [hfind] using h
  | none =>
    simp only [hfind]
    intro t1 ht1 t2 ht2 hsrc hact
    have hnone := findTransition_eq_none hfind
    rcases List.mem_append.1 ht1 with h1 | h1 <;> rcases List.mem_append.1 ht2 with h2 | h2
    · exact h t1 h1 t2 h2 hsrc hact
    · exfalso
      simp only [List.mem_singleton] at h2
      subst h2
      exact hnone t1 h1 ⟨hsrc, hact⟩
    · exfalso
      simp only [List.mem_singleton] at h1
      subst h1
      exact hnone t2 h2 ⟨hsrc.symm, hact.symm⟩
    · simp only [List.mem_singleton] at h1 h2
      rw [h1, h2]

/-- The invariant holds after processing any event sequence from an invariant
state. -/
theorem processEvents_functional (events : List Event) (st : BuildState)
    (h : TransitionsFunctional st.epa.transitions) :
    TransitionsFunctional (processEvents st events).epa.transitions := by
  induction events generalizing st with
  | nil => exact h
  | cons e rest ih => exact ih (stepEvent st e) (stepEvent_preserves_functional st e h)

/-- The `build` is the event-by-event fold over the flattened log. -/
theorem build_eq_processEvents (plain_log : List (List Event)) :
    ExtendedPrefixAutomaton.build plain_log =
      (processEvents (BuildState.mk ExtendedPrefixAutomaton.new []) plain_log.flatten).epa := by
  unfold ExtendedPrefixAutomaton.build processEvents
  rw [List.foldl_flatten]

/-- C4: the automaton built from any log, and the construction state after
any prefix of its event sequence, has at most one transition leaving any
state on a given activity label. -/
theorem claim_C4_transition_partial_function (plain_log : List (List Event)) (pre : List Event)
    (_h : ∃ rest, pre ++ rest = plain_log.flatten) :
    TransitionsFunctional
        ((processEvents (BuildState.mk ExtendedPrefixAutomaton.new []) pre).epa.transitions)
    ∧ TransitionsFunctional (ExtendedPrefixAutomaton.build plain_log).transitions := by
  have hinit : TransitionsFunctional
      (BuildState.mk ExtendedPrefixAutomaton.new []).epa.transitions := by
    intro t1 ht1
    simp [ExtendedPrefixAutomaton.new] at ht1
  refine ⟨processEvents_functional pre _ hinit, ?_⟩
  rw [build_eq_processEvents]
  exact processEvents_functional _ _ hinit

/-- Witness for C4: a two-event log and its one-event construction prefix. -/
theorem claim_C4_transition_partial_function_witness :
    (∃ rest, [eventFixture] ++ rest = [[eventFixture, eventFixture2]].flatten)
    ∧ TransitionsFunctional
        ((processEvents (BuildState.mk ExtendedPrefixAutomaton.new [])
          [eventFixture]).epa.transitions)
    ∧ TransitionsFunctional
        (ExtendedPrefixAutomaton.build [[eventFixture, eventFixture2]]).transitions :=
  ⟨⟨[eventFixture2], rfl⟩,
    claim_C4_transition_partial_function [[eventFixture, eventFixture2]] [eventFixture]
      ⟨[eventFixture2], rfl⟩⟩

/-- Unfolding lemma for `splitOnPred` on a cons cell. -/
theorem splitOnPred_cons (p : Char → Bool) (c : Char) (cs : List Char) :
    splitOnPred p (c :: cs) =
      if p c then [] :: splitOnPred p cs
      else
        match splitOnPred p cs with
        | [] => [[c]]
        | t :: ts => (c :: t) :: ts := rfl

/-- Splitting a list headed by a separator-free chunk followed by a separator
peels off exactly that chunk. -/
theorem splitOnPred_append_sep (p : Char → Bool) (a rest : List Char)
    (ha : ∀ c ∈ a, p c = false) (c : Char) (hc : p c = true) :
    splitOnPred p (a ++ c :: rest) = a :: splitOnPred p rest := by
  induction a with
  | nil => simp [splitOnPred_cons, hc]
  | cons x xs ih =>
    have hx : p x = false := ha x (List.mem_cons_self x xs)
    have ih2 := ih fun d hd => ha d (List.mem_cons_of_mem x hd)
    rw [List.cons_append, splitOnPred_cons, hx]
    simp only [Bool.false_eq_true, if_false]
    rw [ih2]

/-- Tokenizing `from,to:rel` with separator-free endpoint names yields the two
endpoint tokens followed by the tokens of the relation part. -/
theorem tokensOf_split (f t rel : String)
    (hf : ∀ c ∈ f.toList, isSep c = false) (ht : ∀ c ∈ t.toList, isSep c = false) :
    tokensOf (f ++ "," ++ t ++ ":" ++ rel) = f :: t :: tokensOf rel := by
  have h1 : (f ++ "," ++ t ++ ":" ++ rel).toList =
      f.toList ++ ',' :: (t.toList ++ ':' :: rel.toList) := by
    show (f ++ "," ++ t ++ ":" ++ rel).data = f.data ++ ',' :: (t.data ++ ':' :: rel.data)
    simp [String.data_append]
  unfold tokensOf splitSeps
  rw [h1, splitOnPred_append_sep isSep f.toList _ hf ',' rfl,
    splitOnPred_append_sep isSep t.toList _ ht ':' rfl]
  rfl

/-- The `from_str` on such a line consumes the endpoints and hands the relation
tokens to the sequential token reader. -/
theorem fromStr_split (f t rel : String)
    (hf : ∀ c ∈ f.toList, isSep c = false) (ht : ∀ c ∈ t.toList, isSep c = false) :
    fromStr (f ++ "," ++ t ++ ":" ++ rel) = fromTokens (f :: t :: tokensOf rel) := by
  unfold fromStr
  rw [tokensOf_split f t rel hf ht]

/-- The `from_str` on an assembled line. -/
theorem fromStr_lineOf (f t tc td ec : String) (ed : Option String)
    (hf : ∀ c ∈ f.toList, isSep c = false) (ht : ∀ c ∈ t.toList, isSep c = false) :
    fromStr (lineOf f t tc td ec ed) = fromTokens (f :: t :: tokensOf (relPart tc td ec ed)) := by
  unfold lineOf
  exact fromStr_split f t _ hf ht

/-- The `from_str` on a re-encoded record. -/
theorem fromStr_reencode (d : Dependency)
    (hf : ∀ c ∈ d.dfrom.toList, isSep c = false) (ht : ∀ c ∈ d.dto.toList, isSep c = false) :
    fromStr (reencode d) = fromTokens (d.dfrom :: d.dto :: tokensOf d.display) := by
  unfold reencode
  exact fromStr_split _ _ _ hf ht

/-- C10: a line carrying a temporal type code `d`/`e` with temporal direction
`-` decodes to `Ok` with the temporal component silently dropped to `None`
(first conjunct), and a line carrying an existential kind code with
existential direction `-` decodes to `Ok` with the existential component
silently dropped to `None` (second conjunct) — never to a decode error. -/
theorem claim_C10_partial_dependency_dropped (f t : String)
    (hf : ∀ c ∈ f.toList, isSep c = false) (ht : ∀ c ∈ t.toList, isSep c = false) :
    (∀ tc ec ed, (tc = "d" ∨ tc = "e") →
      (ec = "i" ∨ ec = "e" ∨ ec = "ne" ∨ ec = "n" ∨ ec = "o" ∨ ec = "-") →
      (ed = none ∨ ed = some "f" ∨ ed = some "b" ∨ ed = some "-") →
      ∃ d, fromStr (lineOf f t tc "-" ec ed) = Outcome.ok d ∧ d.temporal_dependency = none)
    ∧ (∀ tc td ec, (tc = "d" ∨ tc = "e" ∨ tc = "-") → (td = "f" ∨ td = "b" ∨ td = "-") →
      (ec = "i" ∨ ec = "e" ∨ ec = "ne" ∨ ec = "n" ∨ ec = "o") →
      ∃ d, fromStr (lineOf f t tc td ec (some "-")) = Outcome.ok d ∧
        d.existential_dependency = none) := by
  constructor
  · intro tc ec ed htc hec hed
    rcases htc with rfl | rfl <;>
      rcases hec with rfl | rfl | rfl | rfl | rfl | rfl <;>
        rcases hed with rfl | rfl | rfl | rfl <;>
          exact ⟨_, by rw [fromStr_lineOf _ _ _ _ _ _ hf ht]; rfl, rfl⟩
  · intro tc td ec htc htd hec
    rcases htc with rfl | rfl | rfl <;>
      rcases htd with rfl | rfl | rfl <;>
        rcases hec with rfl | rfl | rfl | rfl | rfl <;>
          exact ⟨_, by rw [fromStr_lineOf _ _ _ _ _ _ hf ht]; rfl, rfl⟩

/-- Witness for C10 at endpoints `a`, `b`: the partially specified lines
`a,b:d,- i,f` and `a,b:d,f i,-` both decode to `Ok` with the respective
component dropped. -/
theorem claim_C10_partial_dependency_dropped_witness :
    (∀ c ∈ "a".toList, isSep c = false) ∧ (∀ c ∈ "b".toList, isSep c = false) ∧
    ((∀ tc ec ed, (tc = "d" ∨ tc = "e") →
      (ec = "i" ∨ ec = "e" ∨ ec = "ne" ∨ ec = "n" ∨ ec = "o" ∨ ec = "-") →
      (ed = none ∨ ed = some "f" ∨ ed = some "b" ∨ ed = some "-") →
      ∃ d, fromStr (lineOf "a" "b" tc "-" ec ed) = Outcome.ok d ∧ d.temporal_dependency = none)
    ∧ (∀ tc td ec, (tc = "d" ∨ tc = "e" ∨ tc = "-") → (td = "f" ∨ td = "b" ∨ td = "-") →
      (ec = "i" ∨ ec = "e" ∨ ec = "ne" ∨ ec = "n" ∨ ec = "o") →
      ∃ d, fromStr (lineOf "a" "b" tc td ec (some "-")) = Outcome.ok d ∧
        d.existential_dependency = none)) :=
  ⟨by decide, by decide,
    claim_C10_partial_dependency_dropped "a" "b" (by decide) (by decide)⟩

/-- C9 counterexample: the well-formed line `a,b:-,- e` decodes to a record
with no temporal dependency and existential `Equivalence`/`Both`; re-encoding
that record renders the absent temporal part as the single token `-`, so
re-decoding the re-encoded form panics on `e` (read as a temporal direction)
instead of reproducing a semantically equivalent record. -/
theorem claim_C9_roundtrip_counterexample :
    fromStr "a,b:-,- e" =
      Outcome.ok (Dependency.mk "a" "b" none
        (some (existential.ExistentialDependency.mk "a" "b"
          existential.DependencyType.Equivalence existential.Direction.Both)))
    ∧ fromStr (reencode (Dependency.mk "a" "b" none
        (some (existential.ExistentialDependency.mk "a" "b"
          existential.DependencyType.Equivalence existential.Direction.Both)))) =
      Outcome.abort "Invalid direction e" :=
  ⟨rfl, rfl⟩

/-- C9 (amended): for every well-formed compact-notation line whose temporal
component is fully specified (code `d`/`e` with direction `f`/`b`), decoding
and re-encoding round-trips — re-decoding the re-encoded form reproduces
exactly the decoded record, with an omitted existential direction read as
`Both` and a `Both` direction written with no token.  (For lines decoding to
a `None` temporal component the round trip instead aborts, per the
counterexample.) -/
theorem claim_C9_roundtrip_amended (f t : String)
    (hf : ∀ c ∈ f.toList, isSep c = false) (ht : ∀ c ∈ t.toList, isSep c = false) :
    ∀ tc td ec ed, (tc = "d" ∨ tc = "e") → (td = "f" ∨ td = "b") →
      (ec = "i" ∨ ec = "e" ∨ ec = "ne" ∨ ec = "n" ∨ ec = "o" ∨ ec = "-") →
      (ed = none ∨ ed = some "f" ∨ ed = some "b" ∨ ed = some "-") →
      ∃ d, fromStr (lineOf f t tc td ec ed) = Outcome.ok d ∧
        d.temporal_dependency.isSome = true ∧
        fromStr (reencode d) = Outcome.ok d := by
  intro tc td ec ed htc htd hec hed
  rcases htc with rfl | rfl <;> rcases htd with rfl | rfl <;>
    rcases hec with rfl | rfl | rfl | rfl | rfl | rfl <;>
      rcases hed with rfl | rfl | rfl | rfl <;>
        exact ⟨_, by rw [fromStr_lineOf _ _ _ _ _ _ hf ht]; rfl, by rfl,
          by rw [fromStr_reencode _ hf ht]; rfl⟩

/-- Witness for the amended C9 at endpoints `a`, `b`. -/
theorem claim_C9_roundtrip_amended_witness :
    (∀ c ∈ "a".toList, isSep c = false) ∧ (∀ c ∈ "b".toList, isSep c = false) ∧
    (∀ tc td ec ed, (tc = "d" ∨ tc = "e") → (td = "f" ∨ td = "b") →
      (ec = "i" ∨ ec = "e" ∨ ec = "ne" ∨ ec = "n" ∨ ec = "o" ∨ ec = "-") →
      (ed = none ∨ ed = some "f" ∨ ed = some "b" ∨ ed = some "-") →
      ∃ d, fromStr (lineOf "a" "b" tc td ec ed) = Outcome.ok d ∧
        d.temporal_dependency.isSome = true ∧
        fromStr (reencode d) = Outcome.ok d) :=
  ⟨by decide, by decide, claim_C9_roundtrip_amended "a" "b" (by decide) (by decide)⟩

/-- Bumping a key raises the total of the counter values by exactly one. -/
theorem countsTotal_bumpCount (m : List (String × Nat)) (k : String) :
    countsTotal (bumpCount m k) = countsTotal m + 1 := by
  induction m with
  | nil => rfl
  | cons kv rest ih =>
    obtain ⟨k', v⟩ := kv
    unfold bumpCount
    by_cases h : k' = k
    · simp [h, countsTotal]
      omega
    · simp [h, countsTotal] at ih ⊢
      omega

/-- The `update` bumps exactly the `"(t, e)"` key of `relationship_counts`. -/
theorem update_relationship_counts (m : MatrixMetrics)
    (td : Option temporal.TemporalDependency) (ed : Option existential.ExistentialDependency) :
    (m.update td ed).relationship_counts =
      bumpCount m.relationship_counts
        ("(" ++ temporalLabel td ++ ", " ++ existentialLabel ed ++ ")") := by
  unfold MatrixMetrics.update
  rcases ed with _ | ⟨ef, eg, ek, eh⟩ <;> rcases td with _ | ⟨tf, tg, tk, th⟩ <;>
    first
    | rfl
    | (cases tk <;> rfl)
    | (cases ek <;> rfl)
    | (cases ek <;> cases tk <;> rfl)

/-- The `update` raises `pure_existences` exactly on a missing temporal
dependency. -/
theorem update_pure_existences (m : MatrixMetrics)
    (td : Option temporal.TemporalDependency) (ed : Option existential.ExistentialDependency) :
    (m.update td ed).pure_existences =
      m.pure_existences + (if td = none then 1 else 0) := by
  unfold MatrixMetrics.update
  rcases ed with _ | ⟨ef, eg, ek, eh⟩ <;> rcases td with _ | ⟨tf, tg, tk, th⟩ <;>
    first
    | rfl
    | (cases tk <;> rfl)
    | (cases ek <;> rfl)
    | (cases ek <;> cases tk <;> rfl)

/-- The `update` raises `full_independences` exactly on a doubly missing
dependency. -/
theorem update_full_independences (m : MatrixMetrics)
    (td : Option temporal.TemporalDependency) (ed : Option existential.ExistentialDependency) :
    (m.update td ed).full_independences =
      m.full_independences + (if td = none ∧ ed = none then 1 else 0) := by
  unfold MatrixMetrics.update
  rcases ed with _ | ⟨ef, eg, ek, eh⟩ <;> rcases td with _ | ⟨tf, tg, tk, th⟩ <;>
    first
    | rfl
    | (cases tk <;> rfl)
    | (cases ek <;> rfl)
    | (cases ek <;> cases tk <;> rfl)

/-- Folding `update` keeps `full_independences ≤ pure_existences`. -/
theorem foldl_full_le_pure
    (l : List (Option temporal.TemporalDependency × Option existential.ExistentialDependency))
    (m : MatrixMetrics) (h : m.full_independences ≤ m.pure_existences) :
    (l.foldl (fun acc p => acc.update p.1 p.2) m).full_independences ≤
      (l.foldl (fun acc p => acc.update p.1 p.2) m).pure_existences := by
  induction l generalizing m with
  | nil => exact h
  | cons p rest ih =>
    refine ih (m.update p.1 p.2) ?_
    rw [update_pure_existences, update_full_independences]
    by_cases h1 : p.1 = none
    · by_cases h2 : p.2 = none <;> simp [h1, h2] <;> omega
    · simp [h1]
      omega

/-- C7 counterexample: an ordered pair classified existentially as `Nand`
(and likewise `Or`) is recorded under the key `"(none, other)"` — the sole
key incremented — which does not name either kind. -/
theorem claim_C7_relationship_keys_counterexample :
    (MatrixMetrics.update MatrixMetrics.init none
        (some (existential.ExistentialDependency.mk "a" "b"
          existential.DependencyType.Nand existential.Direction.Both))).relationship_counts =
      [("(none, other)", 1)]
    ∧ (MatrixMetrics.update MatrixMetrics.init none
        (some (existential.ExistentialDependency.mk "a" "b"
          existential.DependencyType.Or existential.Direction.Both))).relationship_counts =
      [("(none, other)", 1)]
    ∧ ("(none, other)" ≠ "(none, nand)") ∧ ("(none, other)" ≠ "(none, or)") := by
  refine ⟨rfl, rfl, ?_, ?_⟩ <;> decide

/-- C7 (amended): every classified ordered pair increments
`relationship_counts` at the key `"(t, e)"`, where `t` is the temporal kind
or `"none"` and `e` names the existential kind for `Implication`,
`Equivalence` and `NegatedEquivalence` but is the catch-all `"other"` for
both `Nand` and `Or` (`"none"` when absent); `pure_existences` is incremented
exactly when `t` is `"none"`, `full_independences` exactly when both sides
are absent, and hence `full_independences ≤ pure_existences` over any run
from the initial metrics. -/
theorem claim_C7_relationship_keys_amended (m : MatrixMetrics)
    (td : Option temporal.TemporalDependency) (ed : Option existential.ExistentialDependency) :
    ((m.update td ed).relationship_counts =
      bumpCount m.relationship_counts
        ("(" ++ temporalLabel td ++ ", " ++ existentialLabel ed ++ ")"))
    ∧ (∀ e : existential.ExistentialDependency,
        e.dependency_type = existential.DependencyType.Implication →
          existentialLabel (some e) = "implication")
    ∧ (∀ e : existential.ExistentialDependency,
        e.dependency_type = existential.DependencyType.Equivalence →
          existentialLabel (some e) = "equivalence")
    ∧ (∀ e : existential.ExistentialDependency,
        e.dependency_type = existential.DependencyType.NegatedEquivalence →
          existentialLabel (some e) = "negated equivalence")
    ∧ (∀ e : existential.ExistentialDependency,
        e.dependency_type = existential.DependencyType.Nand
          ∨ e.dependency_type = existential.DependencyType.Or →
          existentialLabel (some e) = "other")
    ∧ (m.update td ed).pure_existences = m.pure_existences + (if td = none then 1 else 0)
    ∧ (m.update td ed).full_independences =
        m.full_independences + (if td = none ∧ ed = none then 1 else 0)
    ∧ ∀ l : List (Option temporal.TemporalDependency × Option existential.ExistentialDependency),
        (l.foldl (fun acc p => acc.update p.1 p.2) MatrixMetrics.init).full_independences ≤
          (l.foldl (fun acc p => acc.update p.1 p.2) MatrixMetrics.init).pure_existences := by
  refine ⟨update_relationship_counts m td ed, ?_, ?_, ?_, ?_,
    update_pure_existences m td ed, update_full_independences m td ed,
    fun l => foldl_full_le_pure l MatrixMetrics.init (Nat.le_refl 0)⟩
  · intro e he
    simp [existentialLabel, he]
  · intro e he
    simp [existentialLabel, he]
  · intro e he
    simp [existentialLabel, he]
  · intro e he
    rcases he with he | he <;> simp [existentialLabel, he]

/-- Folding `update` over a pair list raises the counter total by the number
of pairs. -/
theorem countsTotal_foldl
    (oT : String → String → Option temporal.TemporalDependency)
    (oE : String → String → Option existential.ExistentialDependency)
    (l : List (String × String)) (m : MatrixMetrics) :
    countsTotal ((l.foldl (fun acc p => acc.update (oT p.1 p.2) (oE p.1 p.2))
        m).relationship_counts) =
      countsTotal m.relationship_counts + l.length := by
  induction l generalizing m with
  | nil => simp
  | cons p rest ih =>
    rw [List.foldl_cons, ih, update_relationship_counts, countsTotal_bumpCount,
      List.length_cons]
    omega

/-- Sum of a pointwise constant map. -/
theorem sum_map_of_const {α : Type} (l : List α) (g : α → Nat) (c : Nat)
    (h : ∀ a ∈ l, g a = c) : (l.map g).sum = l.length * c := by
  induction l with
  | nil => simp
  | cons a rest ih =>
    rw [List.map_cons, List.sum_cons, h a (List.mem_cons_self a rest),
      ih fun b hb => h b (List.mem_cons_of_mem a hb), List.length_cons]
    ring

/-- In a duplicate-free list containing `f`, all but one element differ from
`f`. -/
theorem countP_ne_of_nodup (l : List String) (f : String) (hd : l.Nodup) (hm : f ∈ l) :
    l.countP (fun t => decide (t ≠ f)) = l.length - 1 := by
  induction l with
  | nil => cases hm
  | cons a rest ih =>
    obtain ⟨hnotin, hdrest⟩ := List.nodup_cons.1 hd
    rcases List.mem_cons.1 hm with rfl | hm2
    · rw [List.countP_cons]
      have hall : rest.countP (fun t => decide (t ≠ f)) = rest.length :=
        List.countP_eq_length.2 fun b hb => by
          simp only [decide_eq_true_eq]
          exact fun hbf => hnotin (hbf ▸ hb)
      have hdf : decide (f ≠ f) = false := by simp
      rw [hall, hdf, List.length_cons]
      simp
    · have hne : a ≠ f := fun haf => hnotin (haf ▸ hm2)
      have hrest := ih hdrest hm2
      have hpos : 1 ≤ rest.length := List.length_pos.2 (List.ne_nil_of_mem hm2)
      have hdec : decide (a ≠ f) = true := by simp [hne]
      rw [List.countP_cons, hrest, hdec, List.length_cons, if_pos rfl]
      omega

/-- The ordered-pair enumeration over a duplicate-free activity list has
`k² − k` entries. -/
theorem adjPairs_length (l : List String) (h : l.Nodup) :
    (adjPairs l).length = l.length * l.length - l.length := by
  unfold adjPairs
  rw [List.length_flatMap,
    sum_map_of_const _ _ (l.length - 1) fun f hf => by
      show ((l.filter fun t => decide (t ≠ f)).map fun t => (f, t)).length = l.length - 1
      rw [List.length_map, ← List.countP_eq_length_filter]
      exact countP_ne_of_nodup l f h hf]
  exact Nat.mul_pred _ _

/-- C6: for a deduplicated activity set of size `k`, the matrix builder's
`relationshipCounts` values sum to exactly `k² − k` — one increment per
ordered pair of distinct activities. -/
theorem claim_C6_relationship_counts_total (acts : List String)
    (oT : String → String → Option temporal.TemporalDependency)
    (oE : String → String → Option existential.ExistentialDependency)
    (h : acts.Nodup) :
    countsTotal (matrixMetricsOf oT oE acts).relationship_counts =
      acts.length * acts.length - acts.length := by
  have hperm : List.Perm (sortedActivities acts) acts := List.perm_insertionSort _ acts
  have hnd : (sortedActivities acts).Nodup := hperm.symm.nodup h
  have hlen : (sortedActivities acts).length = acts.length := hperm.length_eq
  unfold matrixMetricsOf matrixPairs
  rw [countsTotal_foldl, adjPairs_length _ hnd, hlen]
  simp [MatrixMetrics.init, countsTotal]

/-- Witness for C6: two activities and the empty classification yield counter
total `2² − 2 = 2`. -/
theorem claim_C6_relationship_counts_total_witness :
    (["a", "b"] : List String).Nodup ∧
    countsTotal (matrixMetricsOf (fun _ _ => none) (fun _ _ => none)
        ["a", "b"]).relationship_counts =
      (["a", "b"] : List String).length * (["a", "b"] : List String).length -
        (["a", "b"] : List String).length :=
  ⟨by decide,
    claim_C6_relationship_counts_total ["a", "b"] (fun _ _ => none) (fun _ _ => none)
      (by decide)⟩

/-- The `filterMap` keeps as many elements as satisfy the partial map. -/
theorem length_filterMap_eq_countP {α β : Type} (f : α → Option β) (l : List α) :
    (l.filterMap f).length = l.countP fun a => (f a).isSome := by
  induction l with
  | nil => rfl
  | cons a rest ih =>
    cases hfa : f a <;> simp [List.filterMap_cons, hfa, List.countP_cons, ih]

/-- Elements satisfying a predicate and elements refuting it partition a
list. -/
theorem countP_add_countP_not {α : Type} (p : α → Bool) (l : List α) :
    l.countP p + l.countP (fun a => !(p a)) = l.length := by
  induction l with
  | nil => rfl
  | cons a rest ih =>
    rw [List.countP_cons, List.countP_cons, List.length_cons]
    cases hpa : p a <;> simp [hpa] <;> omega

/-- An association list whose entries all share a key and whose keys are
duplicate-free has at most one entry. -/
theorem length_le_one_of_same_key {α : Type} (L : List (String × α)) (r : String)
    (hsub : ∀ x ∈ L, x.1 = r) (hnd : (L.map Prod.fst).Nodup) : L.length ≤ 1 := by
  match L with
  | [] => simp
  | [x] => simp
  | x :: y :: rest =>
    exfalso
    have hx := hsub x (List.mem_cons_self _ _)
    have hy := hsub y (List.mem_cons_of_mem _ (List.mem_cons_self _ _))
    have hnd2 : x.1 ∉ List.map Prod.fst (y :: rest) := (List.nodup_cons.1 hnd).1
    exact hnd2 (by simp [hx, hy])

/-- Under the well-formedness invariant, the partition histogram covers all
states but the root. -/
theorem partitionList_length (epa : ExtendedPrefixAutomaton) (h : StatesWellFormed epa) :
    (partitionList epa).length = epa.states.length - 1 := by
  obtain ⟨hnd, ⟨rkv, hrmem, hrkey, hrnone⟩, hother⟩ := h
  have h1 : (partitionList epa).length =
      epa.states.countP fun kv => (kv.2.partition).isSome := by
    unfold partitionList
    rw [length_filterMap_eq_countP, List.countP_map]
    rfl
  have h2 : (epa.states.countP fun kv => (kv.2.partition).isSome) +
        (epa.states.countP fun kv => !(kv.2.partition).isSome) = epa.states.length :=
    countP_add_countP_not _ _
  have h3 : (epa.states.countP fun kv => !(kv.2.partition).isSome) = 1 := by
    rw [List.countP_eq_length_filter]
    have hsub : ∀ x ∈ epa.states.filter fun kv => !(kv.2.partition).isSome,
        x.1 = epa.root := by
      intro x hx
      obtain ⟨hxmem, hxpred⟩ := List.mem_filter.1 hx
      by_contra hxr
      have := hother x hxmem hxr
      simp [this] at hxpred
    have hndf : ((epa.states.filter fun kv => !(kv.2.partition).isSome).map
        Prod.fst).Nodup :=
      hnd.sublist ((List.filter_sublist _).map Prod.fst)
    have hle := length_le_one_of_same_key _ epa.root hsub hndf
    have hmem : rkv ∈ epa.states.filter fun kv => !(kv.2.partition).isSome := by
      rw [List.mem_filter]
      exact ⟨hrmem, by simp [hrnone]⟩
    have hge : 1 ≤ (epa.states.filter fun kv => !(kv.2.partition).isSome).length :=
      List.length_pos.2 (List.ne_nil_of_mem hmem)
    omega
  omega

/-- The counts of the partition histogram sum to the number of non-root
states. -/
theorem partition_counts_sum (epa : ExtendedPrefixAutomaton) :
    (∑ v ∈ (partitionList epa).toFinset, ((partitionList epa).count v : ℝ)) =
      ((partitionList epa).length : ℝ) := by
  have h : (∑ v ∈ (partitionList epa).toFinset, (partitionList epa).count v) =
      (partitionList epa).length := by
    have h2 := Multiset.toFinset_sum_count_eq (partitionList epa : Multiset ℕ)
    simp only [Multiset.coe_count] at h2
    exact h2
  calc (∑ v ∈ (partitionList epa).toFinset, ((partitionList epa).count v : ℝ))
      = ((∑ v ∈ (partitionList epa).toFinset, (partitionList epa).count v : ℕ) : ℝ) := by
        rw [Nat.cast_sum]
    _ = ((partitionList epa).length : ℝ) := by rw [h]

/-- With at most one state beyond the root the baseline `S` collapses to
one. -/
theorem entropyS_eq_one (epa : ExtendedPrefixAutomaton) (h : epa.states.length ≤ 2) :
    entropyS epa = 1 := by
  unfold entropyS
  rcases (by omega : epa.states.length = 0 ∨ epa.states.length = 1 ∨
    epa.states.length = 2) with h0 | h0 | h0 <;> rw [h0] <;> norm_num

/-- With at least two states beyond the root, `S` is the non-root state
count. -/
theorem entropyS_eq_card (epa : ExtendedPrefixAutomaton) (h : 3 ≤ epa.states.length) :
    entropyS epa = ((epa.states.length - 1 : ℕ) : ℝ) := by
  unfold entropyS
  have h1 : (1 : ℝ) ≤ (epa.states.length : ℝ) := by exact_mod_cast by omega
  have h2 : (1 : ℝ) < (epa.states.length : ℝ) := by exact_mod_cast by omega
  rw [max_eq_left h1, if_pos h2, Nat.cast_sub (by omega)]
  simp

/-- C5: `normalized_variant_entropy` is `0` whenever the normalizing term
`S·log10 S` vanishes — in particular whenever at most one state lies beyond
the root — and lies in `[0, 1]` whenever at least two states lie beyond the
root of a well-formed automaton. -/
theorem claim_C5_normalized_entropy_range (epa : ExtendedPrefixAutomaton)
    (h : StatesWellFormed epa) :
    (entropyS epa * Real.logb 10 (entropyS epa) = 0 → normalized_variant_entropy epa = 0)
    ∧ (epa.states.length ≤ 2 → normalized_variant_entropy epa = 0)
    ∧ (3 ≤ epa.states.length →
        0 ≤ normalized_variant_entropy epa ∧ normalized_variant_entropy epa ≤ 1) := by
  refine ⟨fun hz => ?_, fun hn => ?_, fun hn => ?_⟩
  · unfold normalized_variant_entropy
    rw [if_pos hz]
  · unfold normalized_variant_entropy
    rw [entropyS_eq_one epa hn]
    simp
  · have hS := entropyS_eq_card epa hn
    have hlen := partitionList_length epa h
    have h2 : 2 ≤ epa.states.length - 1 := by omega
    have hS2 : (2 : ℝ) ≤ ((epa.states.length - 1 : ℕ) : ℝ) := by exact_mod_cast h2
    have hlogpos : 0 < Real.logb 10 ((epa.states.length - 1 : ℕ) : ℝ) :=
      Real.logb_pos (by norm_num) (by linarith)
    have hdenom : 0 < ((epa.states.length - 1 : ℕ) : ℝ) *
        Real.logb 10 ((epa.states.length - 1 : ℕ) : ℝ) :=
      mul_pos (by linarith) hlogpos
    have hcount_le : ∀ v ∈ (partitionList epa).toFinset,
        ((partitionList epa).count v : ℝ) ≤ ((epa.states.length - 1 : ℕ) : ℝ) := by
      intro v hv
      have := List.count_le_length v (partitionList epa)
      exact_mod_cast hlen ▸ this
    have hcount_ge : ∀ v ∈ (partitionList epa).toFinset,
        (1 : ℝ) ≤ ((partitionList epa).count v : ℝ) := by
      intro v hv
      have : v ∈ partitionList epa := List.mem_toFinset.1 hv
      exact_mod_cast List.count_pos_iff.2 this
    have hub : entropySumTerm epa ≤ ((epa.states.length - 1 : ℕ) : ℝ) *
        Real.logb 10 ((epa.states.length - 1 : ℕ) : ℝ) := by
      unfold entropySumTerm
      calc ∑ v ∈ (partitionList epa).toFinset,
            ((partitionList epa).count v : ℝ) * Real.logb 10 ((partitionList epa).count v)
          ≤ ∑ v ∈ (partitionList epa).toFinset,
            ((partitionList epa).count v : ℝ) *
              Real.logb 10 ((epa.states.length - 1 : ℕ) : ℝ) := by
            apply Finset.sum_le_sum
            intro v hv
            have h1v := hcount_ge v hv
            refine mul_le_mul_of_nonneg_left ?_ (by linarith)
            exact Real.logb_le_logb_of_le (by norm_num) (by linarith) (hcount_le v hv)
        _ = (∑ v ∈ (partitionList epa).toFinset, ((partitionList epa).count v : ℝ)) *
              Real.logb 10 ((epa.states.length - 1 : ℕ) : ℝ) := by
            rw [Finset.sum_mul]
        _ = ((epa.states.length - 1 : ℕ) : ℝ) *
              Real.logb 10 ((epa.states.length - 1 : ℕ) : ℝ) := by
            rw [partition_counts_sum, hlen]
    have hlb : 0 ≤ entropySumTerm epa := by
      unfold entropySumTerm
      apply Finset.sum_nonneg
      intro v hv
      have h1v := hcount_ge v hv
      have : 0 ≤ Real.logb 10 ((partitionList epa).count v : ℝ) :=
        Real.logb_nonneg (by norm_num) h1v
      nlinarith
    unfold normalized_variant_entropy variant_entropy
    rw [hS, if_neg (ne_of_gt hdenom)]
    constructor
    · apply div_nonneg _ (le_of_lt hdenom)
      linarith
    · rw [div_le_one hdenom]
      linarith

/-- Witness for C5: the fixture automaton has three non-root states, so its
normalized variant entropy lies in `[0, 1]`. -/
theorem claim_C5_normalized_entropy_range_witness :
    StatesWellFormed epaFixture ∧
    ((entropyS epaFixture * Real.logb 10 (entropyS epaFixture) = 0 →
        normalized_variant_entropy epaFixture = 0)
    ∧ (epaFixture.states.length ≤ 2 → normalized_variant_entropy epaFixture = 0)
    ∧ (3 ≤ epaFixture.states.length →
        0 ≤ normalized_variant_entropy epaFixture ∧
          normalized_variant_entropy epaFixture ≤ 1)) :=
  ⟨by decide, claim_C5_normalized_entropy_range epaFixture (by decide)⟩

instance : IsTotal (String × String) pairLe where
  total p q := by
    rcases lt_trichotomy p.1 q.1 with h | h | h
    · exact Or.inl (Or.inl h)
    · rcases le_total p.2 q.2 with h2 | h2
      · exact Or.inl (Or.inr ⟨h, h2⟩)
      · exact Or.inr (Or.inr ⟨h.symm, h2⟩)
    · exact Or.inr (Or.inl h)

instance : IsTrans (String × String) pairLe where
  trans p q r hpq hqr := by
    rcases hpq with h1 | ⟨h1, h1b⟩ <;> rcases hqr with h2 | ⟨h2, h2b⟩
    · exact Or.inl (lt_trans h1 h2)
    · exact Or.inl (h2 ▸ h1)
    · exact Or.inl (h1 ▸ h2)
    · exact Or.inr ⟨h1.trans h2, le_trans h1b h2b⟩

instance : IsAntisymm (String × String) pairLe where
  antisymm p q hpq hqp := by
    rcases hpq with h1 | ⟨h1, h1b⟩ <;> rcases hqp with h2 | ⟨h2, h2b⟩
    · exact absurd h2 (lt_asymm h1)
    · exact absurd h1 (h2 ▸ lt_irrefl _)
    · exact absurd h2 (h1 ▸ lt_irrefl _)
    · exact Prod.ext h1 (le_antisymm h1b h2b)

/-- Relation `pairLt` is irreflexive. -/
theorem pairLt_irrefl (p : String × String) : ¬pairLt p p := by
  rintro (h | ⟨-, h⟩) <;> exact lt_irrefl _ h

/-- Relation `pairLt` is asymmetric. -/
theorem pairLt_asymm {p q : String × String} (h : pairLt p q) : ¬pairLt q p := by
  rintro (h2 | ⟨h2, h2b⟩) <;> rcases h with h1 | ⟨h1, h1b⟩
  · exact lt_asymm h1 h2
  · exact lt_irrefl _ (h1 ▸ h2)
  · exact lt_irrefl _ (h2 ▸ h1)
  · exact lt_asymm h1b h2b

/-- A non-strict pair comparison between distinct pairs is strict. -/
theorem pairLt_of_pairLe_of_ne {p q : String × String} (hle : pairLe p q) (hne : p ≠ q) :
    pairLt p q := by
  rcases hle with h | ⟨h1, h2⟩
  · exact Or.inl h
  · rcases lt_or_eq_of_le h2 with h3 | h3
    · exact Or.inr ⟨h1, h3⟩
    · exact absurd (Prod.ext h1 h3) hne

/-- Inserting into the key-sorted list commutes with attaching the oracle
payload. -/
theorem orderedInsert_map_depOf
    (oT : String → String → Option temporal.TemporalDependency)
    (oE : String → String → Option existential.ExistentialDependency)
    (p : String × String) (l : List (String × String)) :
    List.orderedInsert depLe (depOf oT oE p) (l.map (depOf oT oE)) =
      (List.orderedInsert pairLe p l).map (depOf oT oE) := by
  induction l with
  | nil => rfl
  | cons q rest ih =>
    simp only [List.map_cons, List.orderedInsert]
    by_cases h : pairLe p q
    · rw [if_pos h, if_pos (show depLe (depOf oT oE p) (depOf oT oE q) from h)]
      rfl
    · rw [if_neg h, if_neg (show ¬depLe (depOf oT oE p) (depOf oT oE q) from h)]
      rw [List.map_cons, ih]

/-- Sorting by `(from, to)` commutes with attaching the oracle payload. -/
theorem insertionSort_map_depOf
    (oT : String → String → Option temporal.TemporalDependency)
    (oE : String → String → Option existential.ExistentialDependency)
    (l : List (String × String)) :
    List.insertionSort depLe (l.map (depOf oT oE)) =
      (List.insertionSort pairLe l).map (depOf oT oE) := by
  induction l with
  | nil => rfl
  | cons p rest ih =>
    simp only [List.map_cons, List.insertionSort]
    rw [ih, orderedInsert_map_depOf]

/-- The dedup scan inspects only the key pair, so it commutes with attaching
the oracle payload. -/
theorem dedupScan_map_depOf
    (oT : String → String → Option temporal.TemporalDependency)
    (oE : String → String → Option existential.ExistentialDependency)
    (l : List (String × String)) (seen : List (String × String)) :
    dedupScan (l.map (depOf oT oE)) seen = (pairScan l seen).map (depOf oT oE) := by
  induction l generalizing seen with
  | nil => rfl
  | cons p rest ih =>
    simp only [List.map_cons]
    unfold dedupScan pairScan
    by_cases h : p ∈ seen ∨ (p.2, p.1) ∈ seen
    · rw [if_pos (show ((depOf oT oE p).dfrom, (depOf oT oE p).dto) ∈ seen ∨
          ((depOf oT oE p).dto, (depOf oT oE p).dfrom) ∈ seen from h), if_pos h]
      exact ih seen
    · rw [if_neg (show ¬(((depOf oT oE p).dfrom, (depOf oT oE p).dto) ∈ seen ∨
          ((depOf oT oE p).dto, (depOf oT oE p).dfrom) ∈ seen) from h), if_neg h]
      exact congrArg (List.cons (depOf oT oE p)) (ih (p :: seen))

/-- The dedup scan over a strictly key-sorted pair list in which every pair
occurs with distinct components, such that no kept pair is pre-seen and every
reversed pair is either pre-seen or still ahead, keeps exactly the pairs with
increasing components. -/
theorem pairScan_eq_filter (l : List (String × String)) :
    ∀ seen : List (String × String), l.Pairwise pairLt → (∀ p ∈ l, p.1 ≠ p.2) →
      (∀ p ∈ l, p.1 < p.2 → p ∉ seen ∧ (p.2, p.1) ∉ seen) →
      (∀ p ∈ l, p.2 < p.1 → (p.2, p.1) ∈ seen ∨ (p.2, p.1) ∈ l) →
      pairScan l seen = l.filter fun p => decide (p.1 < p.2) := by
  induction l with
  | nil => intro seen _ _ _ _; rfl
  | cons p rest ih =>
    intro seen hsort hne hii hiii
    obtain ⟨hhead, hsort2⟩ := List.pairwise_cons.1 hsort
    have hnep := hne p (List.mem_cons_self p rest)
    rcases lt_trichotomy p.1 p.2 with hlt | heq | hgt
    · obtain ⟨hnotf, hnotr⟩ := hii p (List.mem_cons_self p rest) hlt
      unfold pairScan
      rw [if_neg (not_or.2 ⟨hnotf, hnotr⟩),
        List.filter_cons_of_pos (by simpa using hlt)]
      refine congrArg (List.cons p) (ih (p :: seen) hsort2
        (fun q hq => hne q (List.mem_cons_of_mem p hq)) ?_ ?_)
      · intro q hq hqlt
        obtain ⟨hq1, hq2⟩ := hii q (List.mem_cons_of_mem p hq) hqlt
        constructor
        · intro hqin
          rcases List.mem_cons.1 hqin with hqp | hqs
          · exact pairLt_irrefl p (hqp ▸ hhead q hq)
          · exact hq1 hqs
        · intro hqin
          rcases List.mem_cons.1 hqin with hqp | hqs
          · obtain ⟨hq21, hq12⟩ := Prod.mk.inj hqp
            exact absurd (hq21 ▸ hq12 ▸ hqlt) (lt_asymm hlt)
          · exact hq2 hqs
      · intro q hq hqgt
        rcases hiii q (List.mem_cons_of_mem p hq) hqgt with hin | hinl
        · exact Or.inl (List.mem_cons_of_mem p hin)
        · rcases List.mem_cons.1 hinl with hqp | hqs
          · exact Or.inl (hqp ▸ List.mem_cons_self p seen)
          · exact Or.inr hqs
    · exact absurd heq hnep
    · have hswap : (p.2, p.1) ∈ seen := by
        rcases hiii p (List.mem_cons_self p rest) hgt with hin | hinl
        · exact hin
        · exfalso
          rcases List.mem_cons.1 hinl with hpp | hps
          · exact hnep (Prod.mk.inj hpp).1.symm
          · rcases hhead _ hps with hc | ⟨hc, -⟩
            · exact lt_asymm hgt hc
            · exact hnep hc
      unfold pairScan
      rw [if_pos (Or.inr hswap),
        List.filter_cons_of_neg (by simpa using not_lt.2 (le_of_lt hgt))]
      refine ih seen hsort2 (fun q hq => hne q (List.mem_cons_of_mem p hq))
        (fun q hq hqlt => hii q (List.mem_cons_of_mem p hq) hqlt) ?_
      intro q hq hqgt
      rcases hiii q (List.mem_cons_of_mem p hq) hqgt with hin | hinl
      · exact Or.inl hin
      · rcases List.mem_cons.1 hinl with hqp | hqs
        · exfalso
          obtain ⟨hq21, hq12⟩ := Prod.mk.inj hqp
          exact lt_asymm hgt (hq12 ▸ hq21 ▸ hqgt)
        · exact Or.inr hqs

/-- The ordered pairs enumerated by `evaluate_deps` are exactly the pairs of
distinct activities. -/
theorem mem_adjPairs (acts : List String) (p : String × String) :
    p ∈ adjPairs acts ↔ p.1 ∈ acts ∧ p.2 ∈ acts ∧ p.2 ≠ p.1 := by
  unfold adjPairs
  constructor
  · intro hp
    obtain ⟨f, hf, hp2⟩ := List.mem_flatMap.1 hp
    obtain ⟨t, ht, rfl⟩ := List.mem_map.1 hp2
    obtain ⟨htmem, htne⟩ := List.mem_filter.1 ht
    exact ⟨hf, htmem, by simpa using htne⟩
  · rintro ⟨h1, h2, h3⟩
    refine List.mem_flatMap.2 ⟨p.1, h1, List.mem_map.2 ⟨p.2, List.mem_filter.2
      ⟨h2, by simpa using h3⟩, rfl⟩⟩

/-- The ordered-pair enumeration of a duplicate-free activity list is
duplicate-free. -/
theorem adjPairs_nodup (acts : List String) (h : acts.Nodup) : (adjPairs acts).Nodup := by
  unfold adjPairs
  rw [List.nodup_flatMap]
  constructor
  · intro f hf
    exact (h.filter _).map fun a b hab => (Prod.mk.inj hab).2
  · refine h.imp ?_
    intro a b hab x hx1 hx2
    obtain ⟨t, -, rfl⟩ := List.mem_map.1 hx1
    obtain ⟨s, -, hst⟩ := List.mem_map.1 hx2
    exact hab (Prod.mk.inj hst.symm).1

/-- Permuting the activity enumeration permutes the ordered pairs. -/
theorem adjPairs_perm {acts1 acts2 : List String} (h : List.Perm acts1 acts2) :
    List.Perm (adjPairs acts1) (adjPairs acts2) := by
  unfold adjPairs
  refine (h.flatMap_right _).trans (List.Perm.flatMap_left acts2 fun a _ => ?_)
  exact (h.filter _).map _

/-- The key-sorted pair enumeration is strictly sorted for a duplicate-free
activity list. -/
theorem sortedPairs_pairwise_lt (acts : List String) (h : acts.Nodup) :
    (List.insertionSort pairLe (adjPairs acts)).Pairwise pairLt := by
  have hs : (List.insertionSort pairLe (adjPairs acts)).Pairwise pairLe :=
    List.sorted_insertionSort pairLe (adjPairs acts)
  have hnd : (List.insertionSort pairLe (adjPairs acts)).Nodup :=
    (List.perm_insertionSort pairLe (adjPairs acts)).symm.nodup (adjPairs_nodup acts h)
  exact (hs.and hnd).imp fun hab => pairLt_of_pairLe_of_ne hab.1 hab.2

/-- The sorted pair enumeration is a function of the activity set alone: any
two enumeration orders sort to the same list. -/
theorem sortedPairs_eq {acts1 acts2 : List String} (hperm : List.Perm acts1 acts2) :
    List.insertionSort pairLe (adjPairs acts1) = List.insertionSort pairLe (adjPairs acts2) :=
  List.eq_of_perm_of_sorted
    ((List.perm_insertionSort pairLe (adjPairs acts1)).trans
      ((adjPairs_perm hperm).trans (List.perm_insertionSort pairLe (adjPairs acts2)).symm))
    (List.sorted_insertionSort pairLe (adjPairs acts1))
    (List.sorted_insertionSort pairLe (adjPairs acts2))

/-- Closed form of the canonical discovery step: the dependencies attached to
the sorted pairs with lexicographically increasing components. -/
theorem canonicalDeps_characterization
    (oT : String → String → Option temporal.TemporalDependency)
    (oE : String → String → Option existential.ExistentialDependency)
    (acts : List String) (h : acts.Nodup) :
    canonicalDeps oT oE acts =
      ((List.insertionSort pairLe (adjPairs acts)).filter fun p =>
        decide (p.1 < p.2)).map (depOf oT oE) := by
  unfold canonicalDeps adjMatrix
  rw [insertionSort_map_depOf, dedupScan_map_depOf]
  have hmemsort : ∀ p, p ∈ List.insertionSort pairLe (adjPairs acts) ↔ p ∈ adjPairs acts :=
    fun p => (List.perm_insertionSort pairLe (adjPairs acts)).mem_iff
  congr 1
  apply pairScan_eq_filter _ _ (sortedPairs_pairwise_lt acts h)
  · intro p hp
    exact ((mem_adjPairs acts p).1 ((hmemsort p).1 hp)).2.2.symm
  · intro p _ _
    simp
  · intro p hp _
    right
    obtain ⟨h1, h2, h3⟩ := (mem_adjPairs acts p).1 ((hmemsort p).1 hp)
    exact (hmemsort (p.2, p.1)).2 ((mem_adjPairs acts (p.2, p.1)).2 ⟨h2, h1, h3.symm⟩)

/-- Swapping the components permutes the ordered-pair enumeration. -/
theorem adjPairs_swap_perm (acts : List String) (h : acts.Nodup) :
    List.Perm ((adjPairs acts).map Prod.swap) (adjPairs acts) := by
  have hnd := adjPairs_nodup acts h
  have hmapnd : ((adjPairs acts).map Prod.swap).Nodup := hnd.map Prod.swap_injective
  refine (List.perm_ext_iff_of_nodup hmapnd hnd).2 fun p => ?_
  constructor
  · intro hp
    obtain ⟨q, hq, rfl⟩ := List.mem_map.1 hp
    obtain ⟨h1, h2, h3⟩ := (mem_adjPairs acts q).1 hq
    exact (mem_adjPairs acts q.swap).2 ⟨h2, h1, h3.symm⟩
  · intro hp
    obtain ⟨h1, h2, h3⟩ := (mem_adjPairs acts p).1 hp
    exact List.mem_map.2 ⟨p.swap, (mem_adjPairs acts p.swap).2 ⟨h2, h1, h3.symm⟩,
      Prod.swap_swap p⟩

/-- Among the `k² − k` ordered pairs of distinct activities, exactly half
have lexicographically increasing components. -/
theorem adjPairs_countP_lt (acts : List String) (h : acts.Nodup) :
    2 * (adjPairs acts).countP (fun p => decide (p.1 < p.2)) =
      acts.length * acts.length - acts.length := by
  have hswap := adjPairs_swap_perm acts h
  have hgt_eq_lt : (adjPairs acts).countP (fun p => decide (p.2 < p.1)) =
      (adjPairs acts).countP (fun p => decide (p.1 < p.2)) := by
    have h1 := hswap.countP_eq fun p => decide (p.1 < p.2)
    rw [List.countP_map] at h1
    exact h1
  have hsplit := countP_add_countP_not (fun p : String × String => decide (p.1 < p.2))
    (adjPairs acts)
  have hcongr : ((adjPairs acts).countP fun p => !(decide (p.1 < p.2))) =
      (adjPairs acts).countP fun p => decide (p.2 < p.1) := by
    apply List.countP_congr
    intro p hp
    obtain ⟨-, -, h3⟩ := (mem_adjPairs acts p).1 hp
    simp only [Bool.not_eq_true', decide_eq_false_iff_not, decide_eq_true_eq]
    constructor
    · intro hnlt
      exact lt_of_le_of_ne (not_lt.1 hnlt) h3
    · intro hlt
      exact not_lt.2 (le_of_lt hlt)
  rw [hcongr, hgt_eq_lt] at hsplit
  rw [← adjPairs_length acts h]
  omega

/-- C1: over any log with `k` distinct activities, the canonical discovery
step of `evaluate_deps` — classify every ordered pair at threshold 1.0, sort
by `(from, to)`, scan in sorted order keeping a pair only if neither it nor
its reverse was kept — yields exactly one dependency per unordered activity
pair (covering every such pair, with no duplicate), hence `k·(k−1)/2`
entries, and the same list regardless of the enumeration order of the
activity set. -/
theorem claim_C1_canonical_discovery
    (oT : String → String → Option temporal.TemporalDependency)
    (oE : String → String → Option existential.ExistentialDependency)
    (acts acts2 : List String) (h : acts.Nodup) (hperm : List.Perm acts acts2) :
    (canonicalDeps oT oE acts).length = acts.length * (acts.length - 1) / 2
    ∧ (canonicalDeps oT oE acts).Pairwise (fun d1 d2 => ¬sameUnorderedPair d1 d2)
    ∧ (∀ a ∈ acts, ∀ b ∈ acts, a ≠ b → ∃ d ∈ canonicalDeps oT oE acts,
        (d.dfrom = a ∧ d.dto = b) ∨ (d.dfrom = b ∧ d.dto = a))
    ∧ canonicalDeps oT oE acts = canonicalDeps oT oE acts2 := by
  have hchar := canonicalDeps_characterization oT oE acts h
  have hmemsort : ∀ p, p ∈ List.insertionSort pairLe (adjPairs acts) ↔ p ∈ adjPairs acts :=
    fun p => (List.perm_insertionSort pairLe (adjPairs acts)).mem_iff
  refine ⟨?_, ?_, ?_, ?_⟩
  · rw [hchar, List.length_map, ← List.countP_eq_length_filter,
      (List.perm_insertionSort pairLe (adjPairs acts)).countP_eq]
    have h2 := adjPairs_countP_lt acts h
    have hk : acts.length * (acts.length - 1) = acts.length * acts.length - acts.length :=
      Nat.mul_pred acts.length acts.length
    rw [← hk] at h2
    generalize acts.length * (acts.length - 1) = A at h2 ⊢
    omega
  · rw [hchar, List.pairwise_map]
    have hfil : ((List.insertionSort pairLe (adjPairs acts)).filter fun p =>
        decide (p.1 < p.2)).Pairwise pairLt :=
      (sortedPairs_pairwise_lt acts h).sublist (List.filter_sublist _)
    refine hfil.imp_of_mem ?_
    intro a b ha hb hab
    have haLT : a.1 < a.2 := by simpa using (List.mem_filter.1 ha).2
    have hbLT : b.1 < b.2 := by simpa using (List.mem_filter.1 hb).2
    rintro (⟨h1, h2⟩ | ⟨h1, h2⟩)
    · exact pairLt_irrefl a ((Prod.ext (h1 : a.1 = b.1) (h2 : a.2 = b.2)) ▸ hab)
    · have h1' : a.1 = b.2 := h1
      have h2' : a.2 = b.1 := h2
      have : a.1 < a.1 := by
        calc a.1 < a.2 := haLT
          _ = b.1 := h2'
          _ < b.2 := hbLT
          _ = a.1 := h1'.symm
      exact lt_irrefl _ this
  · intro a ha b hb hne
    rcases lt_or_gt_of_ne hne with hlt | hgt
    · refine ⟨depOf oT oE (a, b), ?_, Or.inl ⟨rfl, rfl⟩⟩
      rw [hchar]
      refine List.mem_map.2 ⟨(a, b), List.mem_filter.2 ⟨?_, by simpa using hlt⟩, rfl⟩
      exact (hmemsort (a, b)).2 ((mem_adjPairs acts (a, b)).2 ⟨ha, hb, hne.symm⟩)
    · refine ⟨depOf oT oE (b, a), ?_, Or.inr ⟨rfl, rfl⟩⟩
      rw [hchar]
      refine List.mem_map.2 ⟨(b, a), List.mem_filter.2 ⟨?_, by simpa using hgt⟩, rfl⟩
      exact (hmemsort (b, a)).2 ((mem_adjPairs acts (b, a)).2 ⟨hb, ha, hne⟩)
  · rw [hchar, canonicalDeps_characterization oT oE acts2 (hperm.nodup h),
      sortedPairs_eq hperm]

/-- Witness for C1: the activity set `{a, b, c}` enumerated in two orders
under the trivially silent oracle. -/
theorem claim_C1_canonical_discovery_witness :
    (["b", "a", "c"] : List String).Nodup ∧
    List.Perm (["b", "a", "c"] : List String) ["a", "b", "c"] ∧
    ((canonicalDeps (fun _ _ => none) (fun _ _ => none) ["b", "a", "c"]).length =
        (["b", "a", "c"] : List String).length *
          ((["b", "a", "c"] : List String).length - 1) / 2
    ∧ (canonicalDeps (fun _ _ => none) (fun _ _ => none) ["b", "a", "c"]).Pairwise
        (fun d1 d2 => ¬sameUnorderedPair d1 d2)
    ∧ (∀ a ∈ (["b", "a", "c"] : List String), ∀ b ∈ (["b", "a", "c"] : List String),
        a ≠ b → ∃ d ∈ canonicalDeps (fun _ _ => none) (fun _ _ => none) ["b", "a", "c"],
          (d.dfrom = a ∧ d.dto = b) ∨ (d.dfrom = b ∧ d.dto = a))
    ∧ canonicalDeps (fun _ _ => none) (fun _ _ => none) ["b", "a", "c"] =
        canonicalDeps (fun _ _ => none) (fun _ _ => none) ["a", "b", "c"]) :=
  ⟨by decide, by decide,
    claim_C1_canonical_discovery (fun _ _ => none) (fun _ _ => none) ["b", "a", "c"]
      ["a", "b", "c"] (by decide) (by decide)⟩

end MatrixDiscovery
